import Mathlib

/-!
# Verification of the grendeloz/ngs core algorithms

A shallow embedding, in Lean 4, of the core algorithms of the `ngs`
repository: the GFF3 `Feature`/`Features` interval engine
(`Merge`, `PrudentMerge`, `Sort`, `Consolidate`, `PrudentMergeByType`)
and the spaced-seed indexing engine (`Genome`/`Seed`, `addSequence`,
`applySeed`).

Conventions of the embedding:
* Go `int` is modelled by `Int` for genomic coordinates and by `Nat`
  for buffer offsets and lengths (which are non-negative by
  construction in the source).
* Go `map[string]string` (a finite map with unique keys) is modelled
  by an association list `List (String × String)`; where a proof needs
  the unique-keys property of a Go map it is taken as an explicit
  `Nodup` hypothesis on the key list.
* Go pointer mutation is made explicit: a method that mutates its
  receiver is a function returning the new value of the receiver, and
  a function that must not mutate its arguments returns the final
  values of the argument cells alongside its result.
* Go's `[]*Feature` may hold nil pointers; where that matters (the
  `simpleSort` path of `Sort`) the pointer slice is modelled as
  `List (Option Feature)`, with `none` standing for a nil pointer.
-/

/-! ## The GFF3 `Feature` data model (gff3/Feature.go) -/

/-- The GFF3 `Feature` record. Field names follow the Go struct; the Go
field `Type` is rendered `Type'` because `Type` is not a usable
identifier in Lean. `Attributes` is a `map[string]string` in Go,
modelled as an association list. -/
structure Feature where
  SeqId      : String
  Source     : String
  Type'      : String
  Start      : Int
  End        : Int
  Score      : String
  Strand     : String
  Phase      : String
  Attributes : List (String × String)
  LineNumber : Int
deriving Repr, DecidableEq

/-- Source `NewFeature` from the Go source: defaults are `grz` for Source, the
root SOFA accession for Type, and the missing marker for
Score/Strand/Phase. -/
def NewFeature : Feature :=
  { SeqId := "", Source := "grz", Type' := "SO:0000110",
    Start := 0, End := 0,
    Score := ".", Strand := ".", Phase := ".",
    Attributes := [], LineNumber := 0 }

/-- Source `Feature.Clone` rebuilds every field (deep copy of the attribute
map). In the value semantics of the embedding a deep copy is the
identity, which `Clone_eq` records. -/
def Feature.Clone (f : Feature) : Feature :=
  { SeqId := f.SeqId, Source := f.Source, Type' := f.Type',
    Start := f.Start, End := f.End,
    Score := f.Score, Strand := f.Strand, Phase := f.Phase,
    Attributes := f.Attributes.map (fun kv => (kv.1, kv.2)),
    LineNumber := f.LineNumber }

theorem Feature.Clone_eq (f : Feature) : f.Clone = f := by
  cases f with
  | mk s src t st en sc str ph attrs ln =>
      simp [Feature.Clone]

/-! ## The Allen relationship classifier (external package
`github.com/grendeloz/interval`)

Modelled from the spec: the `interval` package is not part of the
repository sources; only its call sites are. Spec §4.1 lists the
relations returned under the precondition `A.start <= B.start`
(`PrecedesB`, `MeetsB`, `OverlapsB`, `StartsB`, `ContainsB`, `EqualsB`,
`IsFinishedByB`, `IsStartedByB`, with `Unknown` as a defensive
fallback), and the `Consolidate` caller (features.go) additionally
names the symmetric relations `FinishesB`, `IsContainedByB`,
`IsOverlappedByB`, `IsMetByB`, `IsPrecededByB` that arise when
`B.start < A.start`. Intervals are 1-based closed integer intervals
(spec §3); "meets" is immediate adjacency (`A.End + 1 = B.Start`),
which is forced by `Consolidate`'s documented behaviour of
consolidating Features that are "immediately adjacent". -/
inductive AllenRelationship where
  | Unknown
  | PrecedesB
  | MeetsB
  | OverlapsB
  | StartsB
  | ContainsB
  | EqualsB
  | IsFinishedByB
  | IsStartedByB
  | FinishesB
  | IsContainedByB
  | IsOverlappedByB
  | IsMetByB
  | IsPrecededByB
deriving Repr, DecidableEq

open AllenRelationship

/-- Modelled from the spec: `interval.Compare` on two closed integer
intervals, via the `interval.Interval` interface (`Low()` = `Start`,
`High()` = `End`). Total over all inputs; given well-formed intervals
this is the standard Allen classification with adjacency as "meets". -/
def Compare (a b : Feature) : AllenRelationship :=
  if a.End + 1 < b.Start then PrecedesB
  else if a.End + 1 = b.Start then MeetsB
  else if b.End + 1 < a.Start then IsPrecededByB
  else if b.End + 1 = a.Start then IsMetByB
  else if a.Start < b.Start then
    if a.End < b.End then OverlapsB
    else if a.End = b.End then IsFinishedByB
    else ContainsB
  else if a.Start = b.Start then
    if a.End < b.End then StartsB
    else if a.End = b.End then EqualsB
    else IsStartedByB
  else
    if b.End < a.End then IsOverlappedByB
    else if b.End = a.End then FinishesB
    else IsContainedByB

/-! ## `Feature.Merge` (gff3/Feature.go) -/

/-- The attribute part of the private `merge`: the Go code collects the
keys of `a.Attributes` and deletes every key that is absent from
`b.Attributes` or present with a different value. The net effect on
the association list is this filter. -/
def mergeAttrs (a b : List (String × String)) : List (String × String) :=
  a.filter (fun kv => b.lookup kv.1 == some kv.2)

/-- The per-field rule of the private `merge`: keep the value when the
two Features agree, else erase to the missing marker. This abbreviates
the five identical `if a.F != b.F { a.F = "." }` blocks of the Go
source. -/
def missing (x y : String) : String :=
  if x = y then x else "."

/-- The private `merge` (gff3/Feature.go): widen the interval to the
outer limits, erase each scalar field to the missing marker unless the
two Features agree on it, and intersect the attributes. Returns the
new value of the receiver `a`. -/
def Feature.mergeRaw (a b : Feature) : Feature :=
  { SeqId := a.SeqId,
    Source := missing a.Source b.Source,
    Type' := missing a.Type' b.Type',
    Start := if b.Start < a.Start then b.Start else a.Start,
    End := if b.End > a.End then b.End else a.End,
    Score := missing a.Score b.Score,
    Strand := missing a.Strand b.Strand,
    Phase := missing a.Phase b.Phase,
    Attributes := mergeAttrs a.Attributes b.Attributes,
    LineNumber := a.LineNumber }

/-- The public `Merge` (gff3/Feature.go): checks the SeqIds and then
calls the private `merge`. The returned pair is the new value of the
receiver `a` together with the returned error (`none` = nil error);
on error the receiver is returned untouched, as in the source where
the error return precedes any mutation. -/
def Feature.Merge (a b : Feature) : Feature × Option String :=
  if a.SeqId ≠ b.SeqId then
    (a, some "Merge: cannot merge Feature with different SeqIds")
  else
    (a.mergeRaw b, none)

/-! ### Lookup lemmas for the association-list model of Go maps -/

theorem lookup_cons_self {k v : String} {l : List (String × String)} :
    ((k, v) :: l).lookup k = some v := by
  simp [List.lookup_cons]

theorem lookup_cons_ne {k k' v' : String} {l : List (String × String)}
    (h : k ≠ k') : ((k', v') :: l).lookup k = l.lookup k := by
  have : (k == k') = false := by simpa using h
  simp [List.lookup_cons, this]

theorem lookup_eq_none_of_not_mem_keys {l : List (String × String)} {k : String}
    (h : k ∉ l.map Prod.fst) : l.lookup k = none := by
  induction l with
  | nil => rfl
  | cons kv rest ih =>
      simp only [List.map_cons, List.mem_cons, not_or] at h
      obtain ⟨hne, hrest⟩ := h
      cases kv with
      | mk k' v' =>
          rw [lookup_cons_ne (by simpa using hne)]
          exact ih hrest

/-- Lookup in a filtered association list whose keys are unique. -/
theorem lookup_filter_of_nodup (q : String × String → Bool)
    {l : List (String × String)} (hnd : (l.map Prod.fst).Nodup) (k : String) :
    (l.filter q).lookup k =
      (l.lookup k).bind (fun v => if q (k, v) then some v else none) := by
  induction l with
  | nil => rfl
  | cons kv rest ih =>
      simp only [List.map_cons, List.nodup_cons] at hnd
      obtain ⟨hnotmem, hrest⟩ := hnd
      cases kv with
      | mk k' v' =>
          by_cases hk : k = k'
          · subst hk
            have hlrest : rest.lookup k = none :=
              lookup_eq_none_of_not_mem_keys hnotmem
            have hfrest : (rest.filter q).lookup k = none := by
              apply lookup_eq_none_of_not_mem_keys
              intro hmem
              exact hnotmem (((rest.filter_sublist).map Prod.fst).mem hmem)
            rw [List.filter_cons]
            by_cases hq : q (k, v')
            · simp [hq, lookup_cons_self]
            · simp [hq, hfrest, lookup_cons_self]
          · rw [List.filter_cons]
            by_cases hq : q (k', v')
            · simp only [hq, if_true]
              rw [lookup_cons_ne hk, lookup_cons_ne hk]
              exact ih hrest
            · simp only [hq, if_false]
              rw [lookup_cons_ne hk]
              exact ih hrest

/-- Characterisation of the merged attribute map: given that `a`'s keys
are unique (a Go map invariant), a key survives the merge with value
`v` exactly when both maps bind it to `v`. -/
theorem lookup_mergeAttrs {a : List (String × String)}
    (b : List (String × String)) {k v : String}
    (ha : (a.map Prod.fst).Nodup) :
    (mergeAttrs a b).lookup k = some v ↔
      a.lookup k = some v ∧ b.lookup k = some v := by
  unfold mergeAttrs
  rw [lookup_filter_of_nodup _ ha]
  cases hl : a.lookup k with
  | none => simp
  | some w =>
      rw [Option.some_bind]
      cases hqb : (b.lookup k == some w) with
      | false =>
          have hb : ¬ b.lookup k = some w := by simpa using hqb
          simp only [hqb, Bool.false_eq_true, if_false]
          constructor
          · intro h; cases h
          · rintro ⟨h1, h2⟩; cases h1; exact absurd h2 hb
      | true =>
          have hb : b.lookup k = some w := by simpa using hqb
          simp only [hqb, if_true]
          constructor
          · intro h; cases h; exact ⟨rfl, hb⟩
          · rintro ⟨h1, _⟩; exact h1

/-! ### C7: the `Merge` contract -/

/-- The full contract of `Feature.Merge a b`: an error is reported
exactly when the SeqIds differ (and then `a` is untouched); otherwise
the interval is widened to the outer limits, every scalar field is
erased to `.` exactly when the two Features disagree on it, and an
attribute binding survives exactly when it is present and identical
in both Features. -/
def MergeContract (a b : Feature) : Prop :=
  ((a.Merge b).2.isSome ↔ a.SeqId ≠ b.SeqId)
  ∧ (a.SeqId ≠ b.SeqId → (a.Merge b).1 = a)
  ∧ (a.SeqId = b.SeqId →
      (a.Merge b).1.Start = min a.Start b.Start
      ∧ (a.Merge b).1.End = max a.End b.End
      ∧ (a.Source = b.Source → (a.Merge b).1.Source = a.Source)
      ∧ (a.Source ≠ b.Source → (a.Merge b).1.Source = ".")
      ∧ (a.Type' = b.Type' → (a.Merge b).1.Type' = a.Type')
      ∧ (a.Type' ≠ b.Type' → (a.Merge b).1.Type' = ".")
      ∧ (a.Score = b.Score → (a.Merge b).1.Score = a.Score)
      ∧ (a.Score ≠ b.Score → (a.Merge b).1.Score = ".")
      ∧ (a.Strand = b.Strand → (a.Merge b).1.Strand = a.Strand)
      ∧ (a.Strand ≠ b.Strand → (a.Merge b).1.Strand = ".")
      ∧ (a.Phase = b.Phase → (a.Merge b).1.Phase = a.Phase)
      ∧ (a.Phase ≠ b.Phase → (a.Merge b).1.Phase = ".")
      ∧ ∀ k v, ((a.Merge b).1.Attributes.lookup k = some v ↔
          a.Attributes.lookup k = some v ∧ b.Attributes.lookup k = some v))

/-- C7. Merge contract: for every pair of Features `a`, `b` with
unique attribute keys on `a` (a Go map invariant), `Merge` reports an
error exactly when the SeqIds differ, leaving `a` unchanged in that
case, and otherwise widens `a` to the union bounds, erases each scalar
field to `.` exactly on disagreement, and keeps an attribute key only
when present with an identical value in both Features. -/
theorem merge_contract (a b : Feature)
    (ha : (a.Attributes.map Prod.fst).Nodup) : MergeContract a b := by
  unfold MergeContract Feature.Merge
  by_cases h : a.SeqId = b.SeqId
  · simp only [h, ne_eq, not_true_eq_false, if_false, ite_false]
    refine ⟨by simp, by simp, fun _ => ?_⟩
    refine ⟨?_, ?_, ?_, ?_, ?_, ?_, ?_, ?_, ?_, ?_, ?_, ?_, ?_⟩
    · show (if b.Start < a.Start then b.Start else a.Start) = min a.Start b.Start
      split <;> omega
    · show (if b.End > a.End then b.End else a.End) = max a.End b.End
      split <;> omega
    · intro hs; simp [Feature.mergeRaw, missing, hs]
    · intro hs; simp [Feature.mergeRaw, missing, hs]
    · intro hs; simp [Feature.mergeRaw, missing, hs]
    · intro hs; simp [Feature.mergeRaw, missing, hs]
    · intro hs; simp [Feature.mergeRaw, missing, hs]
    · intro hs; simp [Feature.mergeRaw, missing, hs]
    · intro hs; simp [Feature.mergeRaw, missing, hs]
    · intro hs; simp [Feature.mergeRaw, missing, hs]
    · intro hs; simp [Feature.mergeRaw, missing, hs]
    · intro hs; simp [Feature.mergeRaw, missing, hs]
    · intro k v
      exact lookup_mergeAttrs b.Attributes ha
  · simp only [h, ne_eq, not_false_eq_true, if_true, ite_true]
    refine ⟨by simp [h], by simp, by simp⟩

/-- Concrete Feature used to instantiate hypothesis-bearing theorems. -/
def featX : Feature :=
  { SeqId := "1", Source := "ensembl", Type' := "exon",
    Start := 1, End := 10, Score := ".", Strand := "+", Phase := ".",
    Attributes := [("ID", "1"), ("Name", "x")], LineNumber := 2 }

/-- Concrete Feature used to instantiate hypothesis-bearing theorems. -/
def featY : Feature :=
  { SeqId := "1", Source := "ensembl", Type' := "CDS",
    Start := 5, End := 20, Score := ".", Strand := "-", Phase := "0",
    Attributes := [("ID", "1"), ("Name", "y")], LineNumber := 3 }

/-- Concrete Feature used to instantiate hypothesis-bearing theorems. -/
def featZ : Feature :=
  { SeqId := "1", Source := "havana", Type' := "exon",
    Start := 8, End := 30, Score := "1.5", Strand := "+", Phase := ".",
    Attributes := [("ID", "1"), ("Parent", "g")], LineNumber := 4 }

/-- Witness for C7 at concrete Features. -/
theorem merge_contract_witness :
    ((featX.Attributes.map Prod.fst).Nodup) ∧ MergeContract featX featY :=
  ⟨by decide, merge_contract featX featY (by decide)⟩

/-! ### C6: order invariance of repeated merging -/

theorem missing_comm (x y : String) : missing x y = missing y x := by
  unfold missing
  split_ifs <;> try rfl
  all_goals try simp_all

theorem missing_assoc (x y z : String) :
    missing (missing x y) z = missing x (missing y z) := by
  unfold missing
  split_ifs <;> try rfl
  all_goals try simp_all

theorem missing_right_comm (x y z : String) :
    missing (missing x y) z = missing (missing x z) y := by
  rw [missing_assoc, missing_assoc, missing_comm y z]

/-- Boolean form of `lookup_mergeAttrs`. -/
theorem lookup_mergeAttrs_beq (b c : List (String × String))
    (hb : (b.map Prod.fst).Nodup) (k v : String) :
    ((mergeAttrs b c).lookup k == some v) =
      ((b.lookup k == some v) && (c.lookup k == some v)) := by
  have hiff := @lookup_mergeAttrs b c k v hb
  by_cases hm : (mergeAttrs b c).lookup k = some v
  · have h := hiff.mp hm
    simp [hm, h.1, h.2]
  · have hbeq : ((mergeAttrs b c).lookup k == some v) = false := by simpa using hm
    rw [hbeq]
    by_cases h1 : b.lookup k = some v
    · have h2 : ¬ c.lookup k = some v := fun hc => hm (hiff.mpr ⟨h1, hc⟩)
      have hc2 : (c.lookup k == some v) = false := by simpa using h2
      simp [hc2]
    · have hc1 : (b.lookup k == some v) = false := by simpa using h1
      simp [hc1]

theorem mergeAttrs_assoc (a b c : List (String × String))
    (hb : (b.map Prod.fst).Nodup) :
    mergeAttrs (mergeAttrs a b) c = mergeAttrs a (mergeAttrs b c) := by
  show ((a.filter fun kv => b.lookup kv.1 == some kv.2).filter
          fun kv => c.lookup kv.1 == some kv.2)
      = a.filter fun kv => (mergeAttrs b c).lookup kv.1 == some kv.2
  rw [List.filter_filter]
  apply List.filter_congr
  intro kv _
  rw [lookup_mergeAttrs_beq b c hb kv.1 kv.2]
  exact Bool.and_comm _ _

theorem mergeAttrs_right_comm (a b c : List (String × String)) :
    mergeAttrs (mergeAttrs a b) c = mergeAttrs (mergeAttrs a c) b := by
  show ((a.filter fun kv => b.lookup kv.1 == some kv.2).filter
          fun kv => c.lookup kv.1 == some kv.2)
      = ((a.filter fun kv => c.lookup kv.1 == some kv.2).filter
          fun kv => b.lookup kv.1 == some kv.2)
  rw [List.filter_filter, List.filter_filter]
  apply List.filter_congr
  intro kv _
  exact Bool.and_comm _ _

theorem nodup_keys_mergeAttrs {b : List (String × String)}
    (c : List (String × String)) (hb : (b.map Prod.fst).Nodup) :
    ((mergeAttrs b c).map Prod.fst).Nodup := by
  show (((b.filter fun kv => c.lookup kv.1 == some kv.2).map Prod.fst)).Nodup
  exact ((List.filter_sublist b).map Prod.fst).nodup hb

/-- Associativity of the destructive merge (same receiver `A`). -/
theorem mergeRaw_assoc (a b c : Feature)
    (hb : (b.Attributes.map Prod.fst).Nodup) :
    (a.mergeRaw b).mergeRaw c = a.mergeRaw (b.mergeRaw c) := by
  simp only [Feature.mergeRaw, Feature.mk.injEq]
  refine ⟨trivial, missing_assoc _ _ _, missing_assoc _ _ _, ?_, ?_,
    missing_assoc _ _ _, missing_assoc _ _ _, missing_assoc _ _ _,
    mergeAttrs_assoc _ _ _ hb, trivial⟩
  · split_ifs <;> omega
  · split_ifs <;> omega

/-- Exchanging the two operands merged into the same receiver `A`. -/
theorem mergeRaw_right_comm (a b c : Feature) :
    (a.mergeRaw b).mergeRaw c = (a.mergeRaw c).mergeRaw b := by
  simp only [Feature.mergeRaw, Feature.mk.injEq]
  refine ⟨trivial, missing_right_comm _ _ _, missing_right_comm _ _ _, ?_, ?_,
    missing_right_comm _ _ _, missing_right_comm _ _ _, missing_right_comm _ _ _,
    mergeAttrs_right_comm _ _ _, trivial⟩
  · split_ifs <;> omega
  · split_ifs <;> omega

/-- Equality of the merge-relevant content of two Features: every field
except the provenance-only `LineNumber`, with the attribute maps
compared semantically (Go maps are unordered). -/
def FeatEquiv (x y : Feature) : Prop :=
  x.SeqId = y.SeqId ∧ x.Source = y.Source ∧ x.Type' = y.Type'
  ∧ x.Start = y.Start ∧ x.End = y.End
  ∧ x.Score = y.Score ∧ x.Strand = y.Strand ∧ x.Phase = y.Phase
  ∧ ∀ k, x.Attributes.lookup k = y.Attributes.lookup k

/-- All pairing orders for merging three Features: associativity and
operand exchange with receiver `A`, plus agreement (up to provenance
and attribute-map order) with the runs whose ultimate receiver is `B`. -/
def MergePairingOrders (A B C : Feature) : Prop :=
  (A.mergeRaw B).mergeRaw C = A.mergeRaw (B.mergeRaw C)
  ∧ (A.mergeRaw B).mergeRaw C = (A.mergeRaw C).mergeRaw B
  ∧ FeatEquiv ((B.mergeRaw C).mergeRaw A) ((A.mergeRaw B).mergeRaw C)

/-- C6. Merge associativity of agreement: for three Features sharing a
SeqId (with the Go-map unique-key invariant on the attribute lists),
merging them pairwise in any pairing order yields the same interval
bounds, the same scalar fields under the agree-or-erase rule, and the
same attribute map. -/
theorem merge_pairing_invariance (A B C : Feature)
    (h1 : A.SeqId = B.SeqId) (h2 : B.SeqId = C.SeqId)
    (ha : (A.Attributes.map Prod.fst).Nodup)
    (hb : (B.Attributes.map Prod.fst).Nodup) :
    MergePairingOrders A B C := by
  unfold MergePairingOrders FeatEquiv
  refine ⟨mergeRaw_assoc A B C hb, mergeRaw_right_comm A B C,
    ?_, ?_, ?_, ?_, ?_, ?_, ?_, ?_, ?_⟩
  · exact h1.symm
  · exact (missing_comm _ _).trans (missing_assoc _ _ _).symm
  · exact (missing_comm _ _).trans (missing_assoc _ _ _).symm
  · simp only [Feature.mergeRaw]
    split_ifs <;> omega
  · simp only [Feature.mergeRaw]
    split_ifs <;> omega
  · exact (missing_comm _ _).trans (missing_assoc _ _ _).symm
  · exact (missing_comm _ _).trans (missing_assoc _ _ _).symm
  · exact (missing_comm _ _).trans (missing_assoc _ _ _).symm
  · intro k
    show (mergeAttrs (mergeAttrs B.Attributes C.Attributes) A.Attributes).lookup k
        = (mergeAttrs (mergeAttrs A.Attributes B.Attributes) C.Attributes).lookup k
    ext v
    simp only [Option.mem_def]
    rw [@lookup_mergeAttrs (mergeAttrs B.Attributes C.Attributes) A.Attributes k v
        (nodup_keys_mergeAttrs C.Attributes hb),
      @lookup_mergeAttrs B.Attributes C.Attributes k v hb,
      @lookup_mergeAttrs (mergeAttrs A.Attributes B.Attributes) C.Attributes k v
        (nodup_keys_mergeAttrs B.Attributes ha),
      @lookup_mergeAttrs A.Attributes B.Attributes k v ha]
    tauto

/-- Witness for C6 at concrete Features. -/
theorem merge_pairing_invariance_witness :
    (featX.SeqId = featY.SeqId ∧ featY.SeqId = featZ.SeqId
      ∧ (featX.Attributes.map Prod.fst).Nodup
      ∧ (featY.Attributes.map Prod.fst).Nodup)
    ∧ MergePairingOrders featX featY featZ :=
  ⟨by refine ⟨rfl, rfl, by decide, by decide⟩,
    merge_pairing_invariance featX featY featZ rfl rfl (by decide) (by decide)⟩

/-! ## `PrudentMerge` and `newOverlapFeature` (gff3/Feature.go) -/

/-- Go map lookup with the zero value `""` for a missing key, as used
by `A.Attributes[...]` reads in `newOverlapFeature`. -/
def lookupD (l : List (String × String)) (k : String) : String :=
  (l.lookup k).getD ""

/-- First-occurrence deduplication, the effect of accumulating strings
as keys of a Go `map[string]int` and then collecting the keys. -/
def dedup (xs : List String) : List String :=
  xs.foldl (fun acc s => if s ∈ acc then acc else acc ++ [s]) []

/-- Ascending insertion into a sorted string list. -/
def insertStr (x : String) : List String → List String
  | [] => [x]
  | y :: ys => if x < y then x :: y :: ys else y :: insertStr x ys

/-- Source `sort.Strings`: lexicographic ascending sort. -/
def sortStrings (xs : List String) : List String :=
  xs.foldl (fun acc x => insertStr x acc) []

/-- Source `newOverlapFeature` (gff3/Feature.go): a fresh Feature based on `A`
and `B`, tracking contributor history in the `Sources`, `Types` and
`IDs` attributes as comma-joined, sorted, de-duplicated sets; a
contributor that is itself a previous merge (marked by
`Source == "grz-merge"`) is unpacked from its own attributes instead
of being counted as a single source. -/
def newOverlapFeature (A B : Feature) : Feature :=
  let sep := ","
  let sources :=
    (if A.Source = "grz-merge" then (lookupD A.Attributes "Sources").splitOn sep
     else [A.Source])
    ++ (if B.Source = "grz-merge" then (lookupD B.Attributes "Sources").splitOn sep
        else [B.Source])
  let finalSources := sortStrings (dedup sources)
  let types :=
    (if A.Source = "grz-merge" then (lookupD A.Attributes "Types").splitOn sep
     else [A.Type'])
    ++ (if B.Source = "grz-merge" then (lookupD B.Attributes "Types").splitOn sep
        else [B.Type'])
  let finalTypes := sortStrings (dedup types)
  let ids :=
    (if A.Source = "grz-merge" then (lookupD A.Attributes "IDs").splitOn sep
     else (match A.Attributes.lookup "ID" with
           | some v => [v]
           | none => []))
    ++ (if B.Source = "grz-merge" then (lookupD B.Attributes "IDs").splitOn sep
        else (match B.Attributes.lookup "ID" with
              | some v => [v]
              | none => []))
  let finalIds := sortStrings (dedup ids)
  { NewFeature with
      SeqId := A.SeqId,
      Source := "grz-merge",
      Attributes := [("IDs", String.intercalate sep finalIds),
                     ("Sources", String.intercalate sep finalSources),
                     ("Types", String.intercalate sep finalTypes)] }

/-- Source `PrudentMerge` (gff3/Feature.go), the returned Feature slice or
error. The function clones `a` and `b` and mutates only the clones and
the fresh overlap Feature, following the Go statement order in each
Allen branch. -/
def prudentMergeGo (a b : Feature) : Except String (List Feature) :=
  if a.Start > b.Start then
    .error "PrudentMerge: A.Start must be less than or equal to B.Start"
  else
    let A := a.Clone
    let B := b.Clone
    match Compare A B with
    | PrecedesB | MeetsB => .ok [A, B]
    | OverlapsB =>
        let O := newOverlapFeature A B
        let O := { O with Start := B.Start, End := A.End }
        let X := A.End
        let A := { A with End := B.Start }
        let B := { B with Start := X }
        .ok [A, O, B]
    | StartsB =>
        let O := newOverlapFeature A B
        let O := { O with Start := A.Start, End := B.Start }
        let B := { B with Start := A.End }
        .ok [O, B]
    | ContainsB =>
        let O := newOverlapFeature A B
        let O := { O with Start := B.Start, End := B.End }
        let A2 := A.Clone
        let A2 := { A2 with Start := B.End }
        let A := { A with End := B.Start }
        .ok [A, O, A2]
    | EqualsB =>
        let O := newOverlapFeature A B
        let O := { O with Start := A.Start, End := A.End }
        .ok [O]
    | IsFinishedByB =>
        let O := newOverlapFeature A B
        let O := { O with Start := B.Start, End := B.End }
        let A := { A with End := B.Start }
        .ok [A, O]
    | IsStartedByB =>
        let O := newOverlapFeature A B
        let O := { O with Start := B.Start, End := B.End }
        let A := { A with Start := B.End }
        .ok [O, A]
    | Unknown =>
        .error "PrudentMerge: Allen Relationship is Unknown"
    | _ =>
        .error "PrudentMerge: big big problem - should be impossible to fall through to here"

/-- Source `PrudentMerge` with the final values of the two argument cells made
explicit: the Go body never assigns through the `a` or `b` pointers
(every write targets the clones `A`, `B` or the fresh `O`/`A2`), so
the cells hold their original values when the call returns. -/
def PrudentMerge (a b : Feature) : Feature × Feature × Except String (List Feature) :=
  (a, b, prudentMergeGo a b)

/-! ### C8: `PrudentMerge` error reporting and non-mutation -/

/-- The C8 contract: both argument cells are returned unmodified in
every case; a start-order violation is reported as an error; and for
well-formed intervals the error occurs exactly on that violation. -/
def PrudentMergeContract (a b : Feature) : Prop :=
  ((PrudentMerge a b).1 = a ∧ (PrudentMerge a b).2.1 = b)
  ∧ (a.Start > b.Start → (prudentMergeGo a b).toOption = none)
  ∧ (a.Start ≤ a.End → b.Start ≤ b.End →
      ((prudentMergeGo a b).toOption = none ↔ a.Start > b.Start))

/-- C8. PrudentMerge error and non-mutation: the inputs are never
mutated (the function works on clones), `A.Start > B.Start` is always
a reported error, and on well-formed intervals it is the only error. -/
theorem prudent_merge_contract (a b : Feature) : PrudentMergeContract a b := by
  unfold PrudentMergeContract
  refine ⟨⟨rfl, rfl⟩, ?_, ?_⟩
  · intro h
    unfold prudentMergeGo
    rw [if_pos h]
    rfl
  · intro hva hvb
    by_cases h : a.Start > b.Start
    · constructor
      · intro _; exact h
      · intro _
        unfold prudentMergeGo
        rw [if_pos h]
        rfl
    · unfold prudentMergeGo
      rw [if_neg h]
      simp only [Feature.Clone_eq]
      constructor
      · intro herr
        exfalso
        revert herr
        unfold Compare
        split_ifs with h1 h2 h3 h4 h5 h6 h7 h8 h9 h10 <;>
          simp [Except.toOption] <;> omega
      · intro hgt
        exact absurd hgt h

/-- Witness for C8, exercising the reported-error case at a concrete
out-of-order pair. -/
theorem prudent_merge_contract_witness :
    PrudentMergeContract featY featX ∧ (prudentMergeGo featY featX).toOption = none :=
  ⟨prudent_merge_contract featY featX,
    (prudent_merge_contract featY featX).2.1 (by decide)⟩

/-! ### C2: the coverage behaviour of `PrudentMerge` -/

/-- Closed 1-based coverage of a position by a Feature (spec §3). -/
def coversPos (f : Feature) (p : Int) : Prop :=
  f.Start ≤ p ∧ p ≤ f.End

instance (f : Feature) (p : Int) : Decidable (coversPos f p) :=
  inferInstanceAs (Decidable (f.Start ≤ p ∧ p ≤ f.End))

/-- The Feature `[1,5]` on SeqId `1`, used for the StartsB case. -/
def featS1 : Feature :=
  { SeqId := "1", Source := "ensembl", Type' := "exon",
    Start := 1, End := 5, Score := ".", Strand := "+", Phase := ".",
    Attributes := [("ID", "s1")], LineNumber := 7 }

/-- The Feature `[1,20]` on SeqId `1`, used for the StartsB case. -/
def featS2 : Feature :=
  { SeqId := "1", Source := "ensembl", Type' := "exon",
    Start := 1, End := 20, Score := ".", Strand := "+", Phase := ".",
    Attributes := [("ID", "s2")], LineNumber := 8 }

/-- C2. PrudentMerge coverage law, evaluated on the code: for
`A=[1,10]`, `B=[5,20]` (OverlapsB) the outputs are `[1,5]`, `[5,10]`,
`[10,20]` — not the claimed `[1,4]`, `[5,10]`, `[11,20]` — so the
split positions 5 and 10 are each covered by two output Features; and
for `A=[1,5]`, `B=[1,20]` (StartsB) the outputs are `[1,1]` and
`[5,20]`, leaving the input-covered positions 2..4 covered by no
output Feature at all. -/
theorem prudent_merge_coverage_counterexample :
    ((prudentMergeGo featX featY).toOption.map
        (List.map fun f => (f.Start, f.End))) = some [(1, 5), (5, 10), (10, 20)]
    ∧ ((prudentMergeGo featX featY).toOption.map
        (fun l => l.countP fun f => decide (coversPos f 5))) = some 2
    ∧ ((prudentMergeGo featX featY).toOption.map
        (fun l => l.countP fun f => decide (coversPos f 10))) = some 2
    ∧ ((prudentMergeGo featS1 featS2).toOption.map
        (List.map fun f => (f.Start, f.End))) = some [(1, 1), (5, 20)]
    ∧ ((prudentMergeGo featS1 featS2).toOption.map
        (fun l => l.countP fun f => decide (coversPos f 3))) = some 0
    ∧ (coversPos featS1 3 ∨ coversPos featS2 3) := by
  refine ⟨by decide, by decide, by decide, by decide, by decide, by decide⟩

/-! ## The `Features` collection (gff3/features.go, src/unnamed/part_008) -/

/-- The `Features` collection: a tagged, optionally sorted list of
Features. The Go field `Features []*Feature` holds non-nil pointers in
every path modelled with `List Feature`; the nil-injecting path of
`simpleSort` is modelled separately on `List (Option Feature)`. -/
structure Features where
  Key      : String
  Value    : String
  Features : List Feature
  IsSorted : Bool
deriving Repr, DecidableEq

/-- One insertion step of `insertFeatures` (features.go): the Go loop
scans for the first element with `Start >= f.Start` and splices `f` in
before it; when no such element exists (in particular when the list is
empty) the loop ends without inserting and `f` is dropped. -/
def insertOneFeature : List Feature → Feature → List Feature
  | [], _ => []
  | g :: rest, f =>
      if g.Start ≥ f.Start then f :: g :: rest
      else g :: insertOneFeature rest f

/-- Source `insertFeatures` (features.go): sorted insertion of each element of
`fs2` into `fs1`. -/
def insertFeatures (fs1 : List Feature) (fs2 : List Feature) : List Feature :=
  fs2.foldl insertOneFeature fs1

/-- The keepers/candidates loop of `PrudentMergeByType` (features.go).
The Go `for` loop carries no bound; the `Nat` argument is an iteration
budget added for the embedding, and a `some` result is the value the
Go loop returns (a `none` means the budget was exhausted before the
loop exited). -/
def prudentMergeByTypeLoop :
    Nat → List Feature → List Feature → Option (Except String (List Feature))
  | 0, _, _ => none
  | _ + 1, keepers, [] => some (.ok keepers)
  | _ + 1, keepers, [c] => some (.ok (keepers ++ [c]))
  | fuel + 1, keepers, A :: B :: rest =>
      if A.SeqId ≠ B.SeqId then
        some (.error "PrudentMergeByType: cannot call on a Features with mixed SeqId")
      else
        match prudentMergeGo A B with
        | .error e => some (.error e)
        | .ok nfs =>
            match nfs with
            | [x] => prudentMergeByTypeLoop fuel keepers (insertFeatures rest [x])
            | [x, y] =>
                prudentMergeByTypeLoop fuel (keepers ++ [x]) (insertFeatures rest [y])
            | [x, y, z] =>
                prudentMergeByTypeLoop fuel (keepers ++ [x]) (insertFeatures rest [y, z])
            | _ =>
                some (.error "PrudentMergeByType: big problem - should be impossible to fall through to here")

/-- Source `PrudentMergeByType` (features.go): requires the sorted flag, then
runs the keepers/candidates loop and installs the keepers as the new
Feature list. (A top-level name is used because the Go field
`Features.Features` occupies the method namespace in Lean.) -/
def featuresPrudentMergeByType (fs : Features) (fuel : Nat) :
    Option (Except String Features) :=
  if !fs.IsSorted then
    some (.error "PrudentMergeByType: cannot call on an unsorted Features")
  else
    (prudentMergeByTypeLoop fuel [] fs.Features).map
      (Except.map (fun keepers => { fs with Features := keepers }))

/-- The scan of `Consolidate` (features.go): the last keeper is merged
with each following candidate until a disjoint (`PrecedesB`) candidate
starts a new keeper; out-of-order relations and `Unknown` are reported
errors. The Go code ignores the error result of the inner
`keepers[keepidx].Merge(...)` call, whose SeqId check was already
performed, so the merge step is the private `merge`. -/
def consolidateGo : Feature → List Feature → List Feature → Except String (List Feature)
  | last, acc, [] => .ok (acc ++ [last])
  | last, acc, f :: rest =>
      if last.SeqId ≠ f.SeqId then
        .error "Consolidate: cannot call on a Features with mixed SeqId"
      else
        match Compare last f with
        | Unknown => .error "Consolidate: Allen Relationship is Unknown"
        | FinishesB => .error "Consolidate: cannot call on an unsorted Features"
        | IsContainedByB => .error "Consolidate: cannot call on an unsorted Features"
        | IsOverlappedByB => .error "Consolidate: cannot call on an unsorted Features"
        | IsMetByB => .error "Consolidate: cannot call on an unsorted Features"
        | IsPrecededByB => .error "Consolidate: cannot call on an unsorted Features"
        | PrecedesB => consolidateGo f (acc ++ [last]) rest
        | _ => consolidateGo (last.mergeRaw f) acc rest

/-- Source `Consolidate` (features.go): requires the sorted flag; an empty
list is returned unchanged; otherwise the scan collapses the Feature
list to the keepers. (A top-level name is used because the Go field
`Features.Features` occupies the method namespace in Lean.) -/
def featuresConsolidate (fs : Features) : Except String Features :=
  if !fs.IsSorted then
    .error "Consolidate: cannot call on an unsorted Features"
  else
    match fs.Features with
    | [] => .ok fs
    | f :: rest =>
        (consolidateGo f [] rest).map (fun keepers => { fs with Features := keepers })

/-! ### C3: `PrudentMergeByType` loses coverage -/

/-- A sorted, single-SeqId collection holding `[1,10]` and `[5,20]`. -/
def featsOverlapPair : Features :=
  { Key := "seqid", Value := "1", Features := [featX, featY], IsSorted := true }

/-- C3. PrudentMergeByType evaluated on the sorted single-SeqId input
`[1,10]`, `[5,20]`: PrudentMerge returns the three Features `[1,5]`,
`[5,10]`, `[10,20]`; the first goes to keepers, but `insertFeatures`
re-inserts the remaining two into the now-empty candidates list by
scanning for an element with a later Start — there is none, so both
are silently dropped. The loop exits with keepers `[[1,5]]`: the
claimed coverage preservation fails (position 15, covered by the
input `[5,20]`, is covered by no output Feature). -/
theorem prudent_merge_by_type_drops_coverage :
    ((featuresPrudentMergeByType featsOverlapPair 10).map
        (fun r => r.toOption.map (fun fs => fs.Features.map fun f => (f.Start, f.End))))
      = some (some [(1, 5)])
    ∧ ((featuresPrudentMergeByType featsOverlapPair 10).map
        (fun r => r.toOption.map (fun fs => fs.Features.countP fun f => decide (coversPos f 15))))
      = some (some 0)
    ∧ coversPos featY 15
    ∧ insertFeatures [] [featY] = [] := by
  refine ⟨by decide, by decide, by decide, by decide⟩

/-! ### C5: idempotence of `Consolidate` -/

/-- The relation holding between consecutive keepers in a consolidated
list: same SeqId and separated by a gap of at least one base. -/
def consRel (x y : Feature) : Prop :=
  x.SeqId = y.SeqId ∧ x.End + 1 < y.Start

instance (x y : Feature) : Decidable (consRel x y) :=
  inferInstanceAs (Decidable (x.SeqId = y.SeqId ∧ x.End + 1 < y.Start))

/-- The Start-sortedness invariant checked by `CheckSorted` and assumed
by the sorted flag (spec §3): consecutive Starts are non-decreasing. -/
def StartSorted (l : List Feature) : Prop :=
  List.Chain' (fun x y => x.Start ≤ y.Start) l

instance (l : List Feature) : Decidable (StartSorted l) :=
  inferInstanceAs (Decidable (List.Chain' (fun x y : Feature => x.Start ≤ y.Start) l))

theorem Compare_eq_precedesB_iff (x y : Feature) :
    Compare x y = PrecedesB ↔ x.End + 1 < y.Start := by
  unfold Compare
  split_ifs <;> simp_all

/-- A list whose consecutive elements are gap-separated on one SeqId is
returned unchanged by the `Consolidate` scan. -/
theorem consolidateGo_of_chain (ls : List Feature) :
    ∀ (l0 : Feature) (acc : List Feature),
    List.Chain' consRel (l0 :: ls) →
    consolidateGo l0 acc ls = .ok (acc ++ l0 :: ls) := by
  induction ls with
  | nil =>
      intro l0 acc _
      simp [consolidateGo]
  | cons c ls ih =>
      intro l0 acc h
      have hrel : consRel l0 c := (List.chain'_cons.mp h).1
      have htail : List.Chain' consRel (c :: ls) := (List.chain'_cons.mp h).2
      have hcmp : Compare l0 c = PrecedesB :=
        (Compare_eq_precedesB_iff l0 c).mpr hrel.2
      simp only [consolidateGo]
      rw [if_neg (not_ne_iff.mpr hrel.1), hcmp]
      rw [ih c (acc ++ [l0]) htail]
      simp

/-- Soundness of the `Consolidate` scan: on a Start-sorted candidate
list, a successful scan returns keepers whose consecutive elements
share the SeqId and are separated by a gap. -/
theorem consolidateGo_chain_of_ok (rest : List Feature) :
    ∀ (last : Feature) (acc out : List Feature),
    StartSorted (last :: rest) →
    List.Chain' consRel (acc ++ [last]) →
    consolidateGo last acc rest = .ok out →
    List.Chain' consRel out := by
  induction rest with
  | nil =>
      intro last acc out _ hacc h
      simp only [consolidateGo, Except.ok.injEq] at h
      exact h ▸ hacc
  | cons c rest ih =>
      intro last acc out hsort hacc h
      simp only [consolidateGo] at h
      by_cases hseq : last.SeqId ≠ c.SeqId
      · rw [if_pos hseq] at h
        exact Except.noConfusion h
      · rw [if_neg hseq] at h
        have hseq' : last.SeqId = c.SeqId := not_ne_iff.mp hseq
        have hle : last.Start ≤ c.Start := (List.chain'_cons.mp hsort).1
        have htail : StartSorted (c :: rest) := (List.chain'_cons.mp hsort).2
        cases hcmp : Compare last c
        all_goals rw [hcmp] at h
        all_goals try (exact Except.noConfusion h)
        · have hgap : last.End + 1 < c.Start :=
            (Compare_eq_precedesB_iff last c).mp hcmp
          refine ih c (acc ++ [last]) out htail ?_ h
          rcases List.chain'_append.mp hacc with ⟨hacc1, _, hlink⟩
          refine List.chain'_append.mpr ⟨hacc, List.chain'_singleton _, ?_⟩
          intro x hx y hy
          simp only [List.head?_cons, Option.mem_def, Option.some.injEq] at hy
          rw [List.getLast?_concat] at hx
          simp only [Option.mem_def, Option.some.injEq] at hx
          subst hx
          subst hy
          exact ⟨hseq', hgap⟩
        all_goals {
          have hstart : (last.mergeRaw c).Start = last.Start := by
            simp only [Feature.mergeRaw]
            rw [if_neg (by omega)]
          have hsort' : StartSorted (last.mergeRaw c :: rest) := by
            have h2 := List.chain'_cons'.mp htail
            refine List.chain'_cons'.mpr ⟨?_, h2.2⟩
            intro y hy
            have := h2.1 y hy
            rw [hstart]
            omega
          have hacc' : List.Chain' consRel (acc ++ [last.mergeRaw c]) := by
            rcases List.chain'_append.mp hacc with ⟨hacc1, _, hlink⟩
            refine List.chain'_append.mpr ⟨hacc1, List.chain'_singleton _, ?_⟩
            intro x hx y hy
            simp only [List.head?_cons, Option.mem_def, Option.some.injEq] at hy
            subst hy
            have hx' := hlink x hx last (by simp)
            refine ⟨hx'.1, ?_⟩
            rw [hstart]
            exact hx'.2
          exact ih (last.mergeRaw c) acc out hsort' hacc' h
        }

/-- C5. Consolidate idempotence: for every Start-sorted collection on
which `Consolidate` succeeds, running `Consolidate` again on the result
succeeds and returns the result unchanged. -/
theorem consolidate_idempotent (X Y : Features)
    (hsort : StartSorted X.Features)
    (h : featuresConsolidate X = .ok Y) :
    featuresConsolidate Y = .ok Y := by
  obtain ⟨XK, XV, XF, XS⟩ := X
  by_cases hs : XS = true
  · subst hs
    cases XF with
    | nil =>
        have h' : Except.ok (⟨XK, XV, [], true⟩ : Features) = Except.ok Y := h
        simp only [Except.ok.injEq] at h'
        subst h'
        rfl
    | cons f rest =>
        have h' : Except.map
            (fun keepers => (⟨XK, XV, keepers, true⟩ : Features))
            (consolidateGo f [] rest) = Except.ok Y := h
        cases hgo : consolidateGo f [] rest with
        | error e =>
            rw [hgo] at h'
            exact Except.noConfusion h'
        | ok keepers =>
            rw [hgo] at h'
            simp only [Except.map, Except.ok.injEq] at h'
            have hchain : List.Chain' consRel keepers :=
              consolidateGo_chain_of_ok rest f [] keepers hsort (by simp) hgo
            subst h'
            cases hk : keepers with
            | nil => rfl
            | cons k0 ks =>
                show Except.map
                    (fun keepers => (⟨XK, XV, keepers, true⟩ : Features))
                    (consolidateGo k0 [] ks)
                  = Except.ok (⟨XK, XV, k0 :: ks, true⟩ : Features)
                rw [consolidateGo_of_chain ks k0 [] (hk ▸ hchain)]
                rfl
  · have hs' : XS = false := by
      cases XS
      · rfl
      · exact absurd rfl hs
    subst hs'
    exact Except.noConfusion h

/-- A sorted single-SeqId collection holding `[1,10]`, `[5,12]`,
`[20,30]`, used to instantiate C5. -/
def featsConsIn : Features :=
  { Key := "seqid", Value := "1",
    Features := [featX,
      { featX with Start := 5, End := 12, LineNumber := 9 },
      { featX with Start := 20, End := 30, LineNumber := 10 }],
    IsSorted := true }

/-- The collection `featsConsIn` consolidates to: `[1,12]`, `[20,30]`. -/
def featsConsOut : Features :=
  { Key := "seqid", Value := "1",
    Features := [{ featX with End := 12 },
      { featX with Start := 20, End := 30, LineNumber := 10 }],
    IsSorted := true }

/-- Witness for C5 at a concrete collection. -/
theorem consolidate_idempotent_witness :
    (StartSorted featsConsIn.Features
      ∧ featuresConsolidate featsConsIn = .ok featsConsOut)
    ∧ featuresConsolidate featsConsOut = .ok featsConsOut :=
  ⟨⟨List.chain'_cons.mpr ⟨by decide,
      List.chain'_cons.mpr ⟨by decide, List.chain'_singleton _⟩⟩, by rfl⟩,
    consolidate_idempotent featsConsIn featsConsOut
      (List.chain'_cons.mpr ⟨by decide,
        List.chain'_cons.mpr ⟨by decide, List.chain'_singleton _⟩⟩) (by rfl)⟩

/-! ### C4: `Sort` / `simpleSort` (features.go) -/

/-- Appending into a Go `map[int][]*Feature` bucket keyed by `k`,
keeping first-seen key order for the association list (iteration order
of the map itself never matters in the source: keys are sorted before
use). -/
def insertGroup : List (Int × List Feature) → Int → Feature → List (Int × List Feature)
  | [], k, x => [(k, [x])]
  | (k', v) :: rest, k, x =>
      if k' = k then (k', v ++ [x]) :: rest
      else (k', v) :: insertGroup rest k x

def lookupGroup (g : List (Int × List Feature)) (k : Int) : List Feature :=
  (g.lookup k).getD []

/-- Ascending insertion into a sorted Int list. -/
def insertInt (x : Int) : List Int → List Int
  | [] => [x]
  | y :: ys => if x ≤ y then x :: y :: ys else y :: insertInt x ys

/-- Source `sort.Ints`: ascending sort. -/
def sortInts (xs : List Int) : List Int :=
  xs.foldl (fun acc x => insertInt x acc) []

/-- Source `simpleSort` (features.go) on the `[]*Feature` pointer slice, with
`none` standing for a nil pointer. The Features are grouped by Start;
groups with more than one Feature are re-grouped by End, and each End
bucket is created with `make([]*Feature, 2)` — a slice that already
holds two nil pointers — before the Features are appended to it, so
the two nils are emitted ahead of every tied-Start End bucket. -/
def simpleSortGo (l : List Feature) : List (Option Feature) :=
  let sorter := l.foldl (fun g f => insertGroup g f.Start f) []
  let starts := sortInts (sorter.map Prod.fst)
  (starts.map (fun st =>
    let grp := lookupGroup sorter st
    if grp.length == 1 then grp.map some
    else
      let endSorter := grp.foldl (fun g f => insertGroup g f.End f) []
      let ends := sortInts (endSorter.map Prod.fst)
      (ends.map (fun e =>
        ([none, none] ++ (lookupGroup endSorter e).map some))).flatten)).flatten

/-- Source `Sort` (features.go): partitions by SeqId (`BySeqId` keeps the
original relative order within each partition), runs `simpleSort` on
each partition, and concatenates the partitions in lexicographic SeqId
order. The Go method is a no-op when the sorted flag is already set,
and sets the flag afterwards; this function computes the pointer-list
content it installs. -/
def sortGo (l : List Feature) : List (Option Feature) :=
  let seqids := sortStrings (dedup (l.map (fun f => f.SeqId)))
  (seqids.map (fun sid => simpleSortGo (l.filter (fun f => f.SeqId == sid)))).flatten

/-- A second Feature tied on Start with `featX` (both start at 1). -/
def featT2 : Feature :=
  { featX with End := 20, LineNumber := 11 }

/-- C4. Sort evaluated on two Features of one SeqId that tie on Start
(1,10) and (1,20): the End-bucket path of `simpleSort` seeds every
bucket with `make([]*Feature, 2)`, so the installed Feature list is
`[nil, nil, (1,10), nil, nil, (1,20)]` — four nil pointers alongside
the two input Features, not "exactly the input Features". -/
theorem sort_injects_nil_features :
    sortGo [featX, featT2]
      = [none, none, some featX, none, none, some featT2]
    ∧ (sortGo [featX, featT2]).length = 6
    ∧ (sortGo [featX, featT2]).count none = 4 := by
  refine ⟨by decide, by decide, by decide⟩

/-! ## The spaced-seed engine (genome package: FastaRec.go, genome.go,
Seed.go / src/unnamed/part_002)

Go strings here are ASCII (FASTA headers, DNA bases, mask characters),
so Go's byte length and byte indexing coincide with the `Char` length
and indexing used below. -/

/-- Source `FastaRec` (FastaRec.go). The back-reference to the source
`FastaFile` carries no data used by the seed engine and is omitted. -/
structure FastaRec where
  Header   : String
  Name     : String
  Info     : String
  Sequence : String
deriving Repr, DecidableEq

/-- Source `NewFastaRec` (FastaRec.go): stores the raw header, then parses
`Name`/`Info` from it after trimming leading spaces and `>` markers
and surrounding whitespace, per the pattern
`([^ \t]+)([ |]*)(.*)` — the name is the maximal leading run of
non-space, non-tab characters, then spaces and pipes are skipped, and
the rest is the info. The `Sequence` field keeps its zero value. -/
def NewFastaRec (header : String) : FastaRec :=
  let t1 := header.data.dropWhile (fun c => c == ' ' || c == '>')
  let t2 := ((t1.dropWhile (fun c => c.isWhitespace)).reverse.dropWhile
              (fun c => c.isWhitespace)).reverse
  if t2.isEmpty then
    { Header := header, Name := "", Info := "", Sequence := "" }
  else
    let name := t2.takeWhile (fun c => !(c == ' ' || c == '\t'))
    let rest := t2.dropWhile (fun c => !(c == ' ' || c == '\t'))
    let info := rest.dropWhile (fun c => c == ' ' || c == '|')
    { Header := header, Name := ⟨name⟩, Info := ⟨info⟩, Sequence := "" }

/-- Source `Length` (FastaRec.go): the length of the record's own `Sequence`
string. -/
def FastaRec.Length (r : FastaRec) : Nat :=
  r.Sequence.length

/-- Source `Seed` (Seed.go / part_002). `Offsets` and `Coords` are Go maps,
modelled as association lists; `Provenance` holds opaque run-metadata
records of the external `runp` package, modelled as unit values. The
`genomeUUID` field is unexported in Go. -/
structure Seed where
  Mask       : String
  Sequences  : List FastaRec
  Offsets    : List (String × Nat)
  Sequence   : List Char
  Coords     : List (String × List Nat)
  Provenance : List Unit
  genomeUUID : String
deriving Repr, DecidableEq

/-- Source `GenomeUUID` (Seed.go): accessor for the unexported field. -/
def Seed.GenomeUUID (gs : Seed) : String :=
  gs.genomeUUID

/-- Source `AddProvenance` (Seed.go): push a fresh run-metadata record onto
the front of the provenance chain. -/
def Seed.AddProvenance (gs : Seed) : Seed :=
  { gs with Provenance := () :: gs.Provenance }

/-- Overwriting insertion into the `Offsets` Go map. -/
def insertOffset : List (String × Nat) → String → Nat → List (String × Nat)
  | [], k, v => [(k, v)]
  | (k', v') :: rest, k, v =>
      if k' = k then (k, v) :: rest
      else (k', v') :: insertOffset rest k v

/-- Go map read with the zero value `0` for a missing key. -/
def lookupOffset (l : List (String × Nat)) (k : String) : Nat :=
  (l.lookup k).getD 0

/-- Appending a position to one oligo's list in the `Coords` Go map. -/
def appendCoord : List (String × List Nat) → String → Nat → List (String × List Nat)
  | [], k, i => [(k, [i])]
  | (k', v) :: rest, k, i =>
      if k' = k then (k', v ++ [i]) :: rest
      else (k', v) :: appendCoord rest k i

/-- Source `addSequence` (part_002): record the pre-append buffer length as
the sequence's offset, append a lightweight descriptor built by
`NewFastaRec(f.Header)` — which does *not* carry the bases — and
append the raw bases to the shared buffer. -/
def Seed.addSequence (gs : Seed) (f : FastaRec) : Seed :=
  let nfr := NewFastaRec f.Header
  let offset := gs.Sequence.length
  { gs with
      Offsets := insertOffset gs.Offsets f.Header offset,
      Sequences := gs.Sequences ++ [nfr],
      Sequence := gs.Sequence ++ f.Sequence.data }

/-- The interrogating positions of a mask: the indices holding `'1'`. -/
def seedPositions (seed : String) : List Nat :=
  (List.range seed.data.length).filter (fun i => seed.data.getD i '0' == '1')

/-- The oligo assembled at window start `i`: the buffer bytes at
`i + seedpos[j]` for each interrogating position, i.e. the first
`len(seedpos)` bytes of the reusable `thisSeed` buffer after the
assembly loop. A read past the buffer end would panic in Go; the
default character stands in for the unreachable case. -/
def oligoAt (buf : List Char) (seedpos : List Nat) (i : Nat) : String :=
  ⟨seedpos.map (fun p => buf.getD (i + p) '.')⟩

/-- The inner position loop of `applySeed` (part_002) for one
sequence: `steps` counts the remaining iterations
(`maxposn - i` clamped at zero). Each iteration first hits the
leftover progress/testing guard `if i%5000000 == 0 { break }` — which
also fires at `i = 0` — then skips windows whose first interrogated
base is `N`, and otherwise records the window's oligo at absolute
position `i`. -/
def scanSeq (buf : List Char) (seedpos : List Nat) :
    Nat → Nat → List (String × List Nat) → List (String × List Nat)
  | _, 0, coords => coords
  | i, steps + 1, coords =>
      if i % 5000000 == 0 then coords
      else if buf.getD (i + seedpos.headD 0) '.' == 'N' then
        scanSeq buf seedpos (i + 1) steps coords
      else
        scanSeq buf seedpos (i + 1) steps
          (appendCoord coords (oligoAt buf seedpos i) i)

/-- Source `applySeed` (part_002): for every stored sequence descriptor, scan
window starts `i` in `[offset, offset + s.Length() - seedlen)` —
where `s.Length()` is the descriptor's own (empty) sequence — and
record each assembled oligo's absolute position. -/
def Seed.applySeed (gs : Seed) (seed : String) : Seed :=
  let seedpos := seedPositions seed
  let seedlen := seed.data.length
  { gs with
      Coords := gs.Sequences.foldl (fun coords s =>
        let offset := lookupOffset gs.Offsets s.Header
        scanSeq gs.Sequence seedpos offset (s.Sequence.length - seedlen) coords)
        gs.Coords }

/-- Source `Genome` (genome.go). The source-file descriptors and version
string carry no data used by the seed engine and are omitted; the
sequence records are the `FastaRec` type used by the Seed sources. -/
structure Genome where
  Name       : String
  UUID       : String
  Sequences  : List FastaRec
  Provenance : List Unit
deriving Repr, DecidableEq

/-- Source `NewSeed` (genome.go): build a Seed bound to the Genome's UUID,
copy the provenance and add a new record, absorb every sequence, and
apply the mask. -/
def Genome.NewSeed (g : Genome) (seed : String) : Seed :=
  let gs : Seed :=
    { Mask := seed, Sequences := [], Offsets := [], Sequence := [],
      Coords := [], Provenance := g.Provenance, genomeUUID := g.UUID }
  let gs := gs.AddProvenance
  let gs := g.Sequences.foldl Seed.addSequence gs
  gs.applySeed seed

/-! ### C1: what `applySeed` actually indexes -/

/-- The FASTA record `chr1` with bases `ACGTACGT`. -/
def recACGT : FastaRec :=
  { Header := "chr1", Name := "chr1", Info := "", Sequence := "ACGTACGT" }

/-- The Genome holding `recACGT`, with identifier `u`. -/
def genomeW : Genome :=
  { Name := "g", UUID := "u", Sequences := [recACGT], Provenance := [] }

/-- C1. Seed index completeness, evaluated on the code: for mask
`"111"` applied to the absorbed sequence `ACGTACGT` (no `N`,
offset 0), the claim requires `coords["ACG"] = [0, 4]` and every
window start in `[0, 5)` to be indexed. The code indexes nothing:
`addSequence` stores a descriptor without the bases, so
`s.Length()` is 0 and `maxposn = offset - seedlen` keeps the window
loop from running at all (and even with the true length, the leftover
`i%5000000 == 0` testing guard breaks out of the loop at `i = 0`).
The resulting `Coords` map is empty although the shared buffer holds
all eight bases. -/
theorem apply_seed_produces_empty_index :
    ((genomeW.NewSeed "111").Coords.lookup "ACG") = none
    ∧ (genomeW.NewSeed "111").Coords = []
    ∧ (genomeW.NewSeed "111").Sequence = "ACGTACGT".data
    ∧ ((genomeW.NewSeed "111").Sequences.map (fun s => s.Sequence)) = [""]
    ∧ scanSeq "ACGTACGT".data (seedPositions "111") 0 5 [] = [] := by
  refine ⟨by decide, by decide, by decide, by decide, by decide⟩

/-! ### C9: the gob round trip drops the genome identifier -/

/-- The gob wire form of a `Seed`: Go's `encoding/gob` transmits only
the exported fields of a struct, so the unexported `genomeUUID` is
not part of the payload. -/
structure SeedWire where
  Mask       : String
  Sequences  : List FastaRec
  Offsets    : List (String × Nat)
  Sequence   : List Char
  Coords     : List (String × List Nat)
  Provenance : List Unit
deriving Repr, DecidableEq

/-- Source `WriteAsGob` (Seed.go), modelled as the gob payload written to the
file: the exported fields of the Seed. -/
def Seed.WriteAsGob (gs : Seed) : SeedWire :=
  { Mask := gs.Mask, Sequences := gs.Sequences, Offsets := gs.Offsets,
    Sequence := gs.Sequence, Coords := gs.Coords,
    Provenance := gs.Provenance }

/-- Source `SeedFromGob` (Seed.go): gob decodes into the fresh `&Seed{}`
supplied by the function, setting the exported fields from the
payload; the unexported `genomeUUID` keeps its zero value `""`. -/
def SeedFromGob (w : SeedWire) : Seed :=
  { Mask := w.Mask, Sequences := w.Sequences, Offsets := w.Offsets,
    Sequence := w.Sequence, Coords := w.Coords,
    Provenance := w.Provenance, genomeUUID := "" }

/-- C9. Genome-identifier round trip, evaluated on the code: the Seed
built by `NewSeed` from the Genome with UUID `u` carries `u`, but
decoding its gob payload yields a Seed whose `GenomeUUID()` is the
empty string — gob never serialises the unexported `genomeUUID`
field — so the claimed round-trip preservation fails. -/
theorem seed_gob_roundtrip_loses_uuid :
    (genomeW.NewSeed "111").GenomeUUID = "u"
    ∧ (SeedFromGob ((genomeW.NewSeed "111").WriteAsGob)).GenomeUUID = ""
    ∧ (SeedFromGob ((genomeW.NewSeed "111").WriteAsGob)).GenomeUUID
        ≠ (genomeW.NewSeed "111").GenomeUUID := by
  refine ⟨by decide, by decide, by decide⟩

/-! ### C10: every buffer read of `applySeed` is in bounds -/

/-- The buffer indices read by the inner loop of `applySeed`, in
order: each non-break iteration reads `i + seedpos[0]` for the `N`
check, and, when the window is kept, `i + seedpos[j]` for every `j`
during oligo assembly. -/
def scanSeqReads (buf : List Char) (seedpos : List Nat) : Nat → Nat → List Nat
  | _, 0 => []
  | i, steps + 1 =>
      if i % 5000000 == 0 then []
      else if buf.getD (i + seedpos.headD 0) '.' == 'N' then
        (i + seedpos.headD 0) :: scanSeqReads buf seedpos (i + 1) steps
      else
        ((i + seedpos.headD 0) :: seedpos.map (fun p => i + p))
          ++ scanSeqReads buf seedpos (i + 1) steps

/-- All buffer indices read by `applySeed` across the stored
sequences. -/
def applySeedReads (gs : Seed) (seed : String) : List Nat :=
  let seedpos := seedPositions seed
  let seedlen := seed.data.length
  (gs.Sequences.map (fun s =>
    scanSeqReads gs.Sequence seedpos (lookupOffset gs.Offsets s.Header)
      (s.Sequence.length - seedlen))).flatten

/-- The offsets invariant of a Seed built by `addSequence`: the offset
recorded for each stored descriptor plus the descriptor's sequence
length stays within the shared buffer. -/
def SeedOffsetsConsistent (gs : Seed) : Prop :=
  ∀ s ∈ gs.Sequences,
    lookupOffset gs.Offsets s.Header + s.Sequence.length ≤ gs.Sequence.length

instance (gs : Seed) : Decidable (SeedOffsetsConsistent gs) :=
  inferInstanceAs (Decidable (∀ s ∈ gs.Sequences,
    lookupOffset gs.Offsets s.Header + s.Sequence.length ≤ gs.Sequence.length))

theorem seedPositions_lt (seed : String) :
    ∀ p ∈ seedPositions seed, p < seed.data.length := by
  intro p hp
  have := List.of_mem_filter hp
  exact List.mem_range.mp (List.mem_of_mem_filter hp)

theorem seedPositions_ne_nil (seed : String) (h : '1' ∈ seed.data) :
    seedPositions seed ≠ [] := by
  obtain ⟨i, hi, hget⟩ := List.mem_iff_getElem.mp h
  have : i ∈ seedPositions seed := by
    refine List.mem_filter.mpr ⟨List.mem_range.mpr hi, ?_⟩
    rw [List.getD_eq_getElem?_getD, List.getElem?_eq_getElem hi]
    simp [hget]
  intro hnil
  rw [hnil] at this
  exact absurd this (List.not_mem_nil i)

theorem headD_mem {l : List Nat} (h : l ≠ []) : l.headD 0 ∈ l := by
  cases l with
  | nil => exact absurd rfl h
  | cons x xs => exact List.mem_cons_self x xs

/-- Every read of the inner scan stays below the buffer length, given
that the scanned range ends within the buffer. -/
theorem scanSeqReads_bound (buf : List Char) (seedpos : List Nat) (L : Nat)
    (hpos : ∀ p ∈ seedpos, p < L) (hne : seedpos ≠ []) :
    ∀ (steps i : Nat), i + steps + L ≤ buf.length + 1 →
    ∀ r ∈ scanSeqReads buf seedpos i steps, r < buf.length := by
  intro steps
  induction steps with
  | zero =>
      intro i _ r hr
      exact absurd hr (List.not_mem_nil r)
  | succ steps ih =>
      intro i hb r hr
      have hhead : seedpos.headD 0 < L := hpos _ (headD_mem hne)
      simp only [scanSeqReads] at hr
      by_cases hbreak : i % 5000000 == 0
      · rw [if_pos hbreak] at hr
        exact absurd hr (List.not_mem_nil r)
      · rw [if_neg hbreak] at hr
        by_cases hN : buf.getD (i + seedpos.headD 0) '.' == 'N'
        · rw [if_pos hN] at hr
          rcases List.mem_cons.mp hr with h1 | h2
          · subst h1; omega
          · exact ih (i + 1) (by omega) r h2
        · rw [if_neg hN] at hr
          rcases List.mem_append.mp hr with h1 | h2
          · rcases List.mem_cons.mp h1 with h3 | h4
            · subst h3; omega
            · obtain ⟨p, hp, rfl⟩ := List.mem_map.mp h4
              have := hpos p hp
              omega
          · exact ih (i + 1) (by omega) r h2

/-- C10. Buffer-access safety of `applySeed`: for every Seed whose
offsets are consistent with the shared buffer (as `addSequence`
leaves them) and every mask containing at least one `'1'`, every
buffer read performed by the scan lies strictly within the bounds of
the shared buffer. -/
theorem apply_seed_reads_in_bounds (gs : Seed) (mask : String)
    (hmask : '1' ∈ mask.data) (hoff : SeedOffsetsConsistent gs) :
    ∀ r ∈ applySeedReads gs mask, r < gs.Sequence.length := by
  intro r hr
  unfold applySeedReads at hr
  obtain ⟨reads, hreads, hrin⟩ := List.mem_flatten.mp hr
  obtain ⟨s, hs, rfl⟩ := List.mem_map.mp hreads
  have hspos := seedPositions_lt mask
  have hsne := seedPositions_ne_nil mask hmask
  have hsL := hoff s hs
  cases hsteps : s.Sequence.length - mask.data.length with
  | zero =>
      rw [hsteps] at hrin
      exact absurd hrin (List.not_mem_nil r)
  | succ n =>
      rw [hsteps] at hrin
      refine scanSeqReads_bound gs.Sequence (seedPositions mask)
        mask.data.length hspos hsne (n + 1)
        (lookupOffset gs.Offsets s.Header) ?_ r hrin
      have : mask.data.length ≤ s.Sequence.length := by omega
      omega

/-- A Seed built by `addSequence` from an empty Seed, used to
instantiate C10. -/
def seedW : Seed :=
  Seed.addSequence
    { Mask := "11_1", Sequences := [], Offsets := [], Sequence := [],
      Coords := [], Provenance := [], genomeUUID := "u" }
    recACGT

/-- Witness for C10 at a concrete Seed and mask. -/
theorem apply_seed_reads_in_bounds_witness :
    ('1' ∈ "11_1".data ∧ SeedOffsetsConsistent seedW)
    ∧ ∀ r ∈ applySeedReads seedW "11_1", r < seedW.Sequence.length :=
  ⟨⟨by decide, by decide⟩,
    apply_seed_reads_in_bounds seedW "11_1" (by decide) (by decide)⟩
